import Mathlib

/-!
Verification of the Health Metrics Aggregation Engine
(`src/data_structures.py`) against its specification.

The Python classes are shallowly embedded as Lean structures with pure
state-passing operations:

* Python `datetime` values are modelled by `DT`: an absolute timestamp in
  seconds (`sec : Int`) together with the calendar year of that instant
  (`year : Int`).  Chronological comparison of datetimes is comparison of
  `sec`; `timedelta.days` is floored division of the second difference by
  86400, exactly as Python's `timedelta` normalises (floor toward -∞).
* Python dicts (insertion-ordered) are association lists; `Counter` is an
  association list to `Nat`; `set` is `Finset`.
* Python floats appearing in analytics are modelled as exact rationals.
* `heapq` heaps are modelled by their multiset of entries, as a list:
  `heappush` appends, `heappop` removes the least entry under the
  lexicographic tuple order (the only facts observable through the engine's
  interface are the popped values, which depend only on the multiset).
* Python's stable `list.sort(key=..., reverse=True)` is modelled by the
  stable insertion sort `ssort` with the corresponding "comes before or
  equal" boolean relation.
-/

namespace PHR

/-! ### Severity (`class Severity(Enum)`) -/

inductive Severity where
  | mild
  | moderate
  | critical
deriving DecidableEq, Repr

/-- The `Severity.value` in Python (`"mild" | "moderate" | "critical"`). -/
def Severity.value : Severity → String
  | .mild => "mild"
  | .moderate => "moderate"
  | .critical => "critical"

/-! ### Substring containment (Python's `needle in haystack` on strings) -/

/-- Python's `needle in hay` substring test, on strings as char lists. -/
def strContains (needle : List Char) : List Char → Bool
  | [] => needle.isEmpty
  | c :: t => needle.isPrefixOf (c :: t) || strContains needle t

/-! ### `HealthRecord._calculate_severity` -/

def criticalKeywords : List (List Char) :=
  ["hypertension".toList, "diabetes".toList, "heart".toList,
   "cancer".toList, "stroke".toList, "emergency".toList]

def moderateKeywords : List (List Char) :=
  ["asthma".toList, "allergies".toList, "migraine".toList,
   "arthritis".toList, "chronic".toList]

/-- The `HealthRecord._calculate_severity`: lower-case the diagnosis, test the
CRITICAL keyword set, then the MODERATE keyword set, default MILD. -/
def calcSeverity (diagnosis : List Char) : Severity :=
  let dl := diagnosis.map Char.toLower
  if criticalKeywords.any (fun k => strContains k dl) then .critical
  else if moderateKeywords.any (fun k => strContains k dl) then .moderate
  else .mild

/-! ### Datetimes -/

/-- A Python `datetime`: absolute seconds `sec` plus its calendar year. -/
structure DT where
  year : Int
  sec : Int
deriving DecidableEq, Repr

/-- The `(a - b).days` for datetimes: Python `timedelta` floors toward -∞. -/
def daysBetween (a b : DT) : Int := Int.fdiv (a.sec - b.sec) 86400

/-! ### `HealthRecord` -/

structure HealthRecord where
  record_id : Int
  user_id : Int
  doctor_id : Int
  diagnosis : List Char
  record_date : DT
  severity : Severity
  file_path : Option (List Char)
deriving DecidableEq, Repr

/-- The `HealthRecord(...)` construction: `__post_init__` always overwrites
`severity` with `_calculate_severity()`. -/
def mkHealthRecord (record_id user_id doctor_id : Int) (diagnosis : List Char)
    (record_date : DT) (file_path : Option (List Char)) : HealthRecord :=
  { record_id := record_id, user_id := user_id, doctor_id := doctor_id,
    diagnosis := diagnosis, record_date := record_date,
    severity := calcSeverity diagnosis, file_path := file_path }

/-! ### Association lists: Python's insertion-ordered dicts -/

/-- The `d[k]` lookup (as `Option`). -/
def alookup {κ β : Type} [DecidableEq κ] : List (κ × β) → κ → Option β
  | [], _ => none
  | (k, v) :: t, key => if key = k then some v else alookup t key

/-- The `d[k] = v`: overwrite in place if present, else append (dict order). -/
def aset {κ β : Type} [DecidableEq κ] : List (κ × β) → κ → β → List (κ × β)
  | [], key, val => [(key, val)]
  | (k, v) :: t, key, val =>
    if key = k then (k, val) :: t else (k, v) :: aset t key val

/-- The `del d[k]` (no-op when absent; the engine only deletes present keys). -/
def adel {κ β : Type} [DecidableEq κ] : List (κ × β) → κ → List (κ × β)
  | [], _ => []
  | (k, v) :: t, key => if key = k then t else (k, v) :: adel t key

/-- The `Counter` increment `c[k] += 1` (missing key counts as 0). -/
def bump {κ : Type} [DecidableEq κ] (c : List (κ × Nat)) (key : κ) :
    List (κ × Nat) :=
  aset c key ((alookup c key).getD 0 + 1)

/-- The `defaultdict(list)` append `d[k].append(x)` (missing key starts `[]`). -/
def dappend {κ β : Type} [DecidableEq κ] (d : List (κ × List β)) (key : κ)
    (x : β) : List (κ × List β) :=
  aset d key ((alookup d key).getD [] ++ [x])

/-! ### Stable sorting (Python's `list.sort` is a stable sort) -/

/-- Insert `x` after every element `y` with `le y x` (keeps stability). -/
def sinsert {α : Type} (le : α → α → Bool) (x : α) : List α → List α
  | [] => [x]
  | y :: t => if le y x then y :: sinsert le x t else x :: y :: t

/-- Stable sort under the total boolean preorder `le`: elements are inserted
left to right, each going after all earlier elements `≤`-below-or-tied. -/
def ssort {α : Type} (le : α → α → Bool) (l : List α) : List α :=
  l.foldl (fun acc x => sinsert le x acc) []

/-- The `Counter.most_common(n)`: entries stably sorted by count descending,
first `n` taken. -/
def mostCommon {κ : Type} (c : List (κ × Nat)) (n : Nat) : List (κ × Nat) :=
  (ssort (fun a b => b.2 ≤ a.2) c).take n

/-! ### Heaps as multisets -/

/-- The `heapq.heappop`: remove the least element (first occurrence). -/
def popMin {α : Type} (le : α → α → Bool) : List α → Option (α × List α)
  | [] => none
  | x :: t =>
    match popMin le t with
    | none => some (x, [])
    | some (m, r) => if le x m then some (x, t) else some (m, x :: r)

/-- The `k` successive `heappop`s: the popped values in order, and the rest. -/
def popK {α : Type} (le : α → α → Bool) : Nat → List α → List α × List α
  | 0, l => ([], l)
  | k + 1, l =>
    match popMin le l with
    | none => ([], l)
    | some (m, r) =>
      let p := popK le k r
      (m :: p.1, p.2)

/-- Lexicographic order on `(patient_count, doctor_id)` workload entries. -/
def workLe (a b : Int × Int) : Bool :=
  decide (a.1 < b.1) || (decide (a.1 = b.1) && decide (a.2 ≤ b.2))

/-- Lexicographic order on `(priority, follow_up_date, treatment_id)`. -/
def urgLe (a b : Int × Int × Int) : Bool :=
  decide (a.1 < b.1) ||
    (decide (a.1 = b.1) &&
      (decide (a.2.1 < b.2.1) ||
        (decide (a.2.1 = b.2.1) && decide (a.2.2 ≤ b.2.2))))

/-! ### `HealthDataCache` (bounded LRU cache)

`cache` is the dict, `access_order` the deque (head = least recently used,
i.e. the `popleft` end).  `get` on a present key calls
`access_order.remove(key)` then appends; in every reachable state the deque
holds exactly the dict's keys (proved below), so the total `List.erase`
models `deque.remove` exactly.  `put`'s eviction branch `popleft`s the
deque; on an empty deque Python raises, modelled by returning `none`. -/

structure HealthDataCache (α : Type) where
  cache : List (String × α)
  access_order : List String
  max_size : Nat
deriving DecidableEq, Repr

/-- The `HealthDataCache(max_size)`. -/
def HealthDataCache.init (α : Type) (max_size : Nat) : HealthDataCache α :=
  { cache := [], access_order := [], max_size := max_size }

/-- The `HealthDataCache.get`: on a hit, promote the key to most-recently-used
and return the stored value; on a miss return `none` (Python `None`). -/
def HealthDataCache.get {α : Type} (s : HealthDataCache α) (key : String) :
    Option α × HealthDataCache α :=
  match alookup s.cache key with
  | some v =>
    (some v, { s with access_order := (s.access_order.erase key) ++ [key] })
  | none => (none, s)

/-- The `HealthDataCache.put`.  `none` models the uncaught `IndexError` of
`popleft()` on an empty deque (reachable only with `max_size = 0`). -/
def HealthDataCache.put {α : Type} (s : HealthDataCache α) (key : String)
    (value : α) : Option (HealthDataCache α) :=
  if (alookup s.cache key).isSome then
    some { s with cache := aset s.cache key value,
                  access_order := (s.access_order.erase key) ++ [key] }
  else if s.max_size ≤ s.cache.length then
    match s.access_order with
    | [] => none
    | oldest :: rest =>
      some { s with cache := aset (adel s.cache oldest) key value,
                    access_order := rest ++ [key] }
  else
    some { s with cache := aset s.cache key value,
                  access_order := s.access_order ++ [key] }

/-! ### `PatientTimeline` -/

structure PatientTimeline where
  records_by_year : List (Int × List HealthRecord)
  severity_index : List (Severity × List HealthRecord)
  doctor_visits : List (Int × Nat)
  condition_frequency : List (List Char × Nat)
deriving DecidableEq, Repr

def PatientTimeline.init : PatientTimeline :=
  { records_by_year := [], severity_index := [], doctor_visits := [],
    condition_frequency := [] }

/-- Descending-by-date "comes before or equal" relation used by
`records.sort(key=lambda r: r.record_date, reverse=True)`. -/
def recDesc (a b : HealthRecord) : Bool :=
  decide (b.record_date.sec ≤ a.record_date.sec)

/-- The `PatientTimeline.add_record`: append to the year bucket, the severity
bucket and both counters, then stably re-sort the year bucket descending. -/
def PatientTimeline.add_record (tl : PatientTimeline) (r : HealthRecord) :
    PatientTimeline :=
  let year := r.record_date.year
  let byYear := dappend tl.records_by_year year r
  { records_by_year :=
      aset byYear year (ssort recDesc ((alookup byYear year).getD [])),
    severity_index := dappend tl.severity_index r.severity r,
    doctor_visits := bump tl.doctor_visits r.doctor_id,
    condition_frequency := bump tl.condition_frequency r.diagnosis }

/-- The `get_records_by_year` (the `defaultdict` miss yields `[]`). -/
def PatientTimeline.get_records_by_year (tl : PatientTimeline) (year : Int) :
    List HealthRecord :=
  (alookup tl.records_by_year year).getD []

def PatientTimeline.get_critical_records (tl : PatientTimeline) :
    List HealthRecord :=
  (alookup tl.severity_index .critical).getD []

def PatientTimeline.get_most_visited_doctors (tl : PatientTimeline)
    (limit : Nat) : List (Int × Nat) :=
  mostCommon tl.doctor_visits limit

def PatientTimeline.get_common_conditions (tl : PatientTimeline)
    (limit : Nat) : List (List Char × Nat) :=
  mostCommon tl.condition_frequency limit

/-! ### `Doctor` and `DoctorAnalytics` -/

structure Doctor where
  doctor_id : Int
  name : String
  specialization : String
  contact_number : String
  email : String
  patient_count : Int
  avg_severity_score : ℚ
deriving DecidableEq, Repr

/-- The `DoctorAnalytics` (the float-valued `calculate_efficiency_score` is not
touched by any claim and is omitted together with `efficiency_scores`'s
only writer; the field itself is kept). -/
structure DoctorAnalytics where
  specialization_map : List (String × List Doctor)
  workload_heap : List (Int × Int)
  efficiency_scores : List (Int × ℚ)
deriving DecidableEq, Repr

def DoctorAnalytics.init : DoctorAnalytics :=
  { specialization_map := [], workload_heap := [], efficiency_scores := [] }

/-- The `DoctorAnalytics.add_doctor`. -/
def DoctorAnalytics.add_doctor (d : DoctorAnalytics) (doc : Doctor) :
    DoctorAnalytics :=
  { d with
    specialization_map := dappend d.specialization_map doc.specialization doc,
    workload_heap := d.workload_heap ++ [(doc.patient_count, doc.doctor_id)] }

/-- The `DoctorAnalytics.get_least_busy_doctors`: pops `min(count, len)` entries
off the workload heap and does NOT push them back. -/
def DoctorAnalytics.get_least_busy_doctors (d : DoctorAnalytics)
    (count : Nat) : List Int × DoctorAnalytics :=
  let p := popK workLe (min count d.workload_heap.length) d.workload_heap
  (p.1.map (fun e => e.2), { d with workload_heap := p.2 })

/-! ### `TreatmentPriorityQueue` -/

structure TreatmentPriorityQueue where
  urgent_treatments : List (Int × Int × Int)
  overdue_treatments : Finset Int
deriving DecidableEq

def TreatmentPriorityQueue.init : TreatmentPriorityQueue :=
  { urgent_treatments := [], overdue_treatments := ∅ }

def severityModifier : Severity → Int
  | .critical => 0
  | .moderate => 10
  | .mild => 20

/-- The `_calculate_priority` at current time `now` (seconds):
`(follow_up_date - datetime.now()).days + severity_modifier[severity]`. -/
def calculatePriority (now : Int) (follow_up_date : Int) (sev : Severity) :
    Int :=
  Int.fdiv (follow_up_date - now) 86400 + severityModifier sev

/-- The `add_treatment` at current time `now` (the two `datetime.now()` calls in
the source happen within the same call and are modelled as one instant). -/
def TreatmentPriorityQueue.add_treatment (q : TreatmentPriorityQueue)
    (now : Int) (treatment_id : Int) (follow_up_date : Int) (sev : Severity) :
    TreatmentPriorityQueue :=
  let priority := calculatePriority now follow_up_date sev
  { urgent_treatments :=
      q.urgent_treatments ++ [(priority, follow_up_date, treatment_id)],
    overdue_treatments :=
      if follow_up_date < now then insert treatment_id q.overdue_treatments
      else q.overdue_treatments }

/-- The `get_next_urgent_treatments`: pop `min(count, len)` entries, record their
ids, then push every popped entry back (heap restored). -/
def TreatmentPriorityQueue.get_next_urgent_treatments
    (q : TreatmentPriorityQueue) (count : Nat) :
    List Int × TreatmentPriorityQueue :=
  let p := popK urgLe (min count q.urgent_treatments.length)
    q.urgent_treatments
  (p.1.map (fun e => e.2.2), { q with urgent_treatments := p.2 ++ p.1 })

/-- The `get_overdue_treatments` returns a copy of the overdue set. -/
def TreatmentPriorityQueue.get_overdue_treatments
    (q : TreatmentPriorityQueue) : Finset Int :=
  q.overdue_treatments

/-! ### `HealthMetricsAggregator` (facade) -/

/-- The `record_data` dict handed to `add_health_record` (its
`record_date` ISO string already parsed to a datetime). -/
structure RecordData where
  record_id : Int
  user_id : Int
  doctor_id : Int
  diagnosis : List Char
  record_date : DT
  file_path : Option (List Char)
deriving DecidableEq, Repr

/-- The summary dict built by `get_user_health_summary` (always 5 keys,
hence always truthy as a Python dict). -/
structure Summary where
  total_records : Nat
  critical_conditions : Nat
  most_visited_doctors : List (Int × Nat)
  common_conditions : List (List Char × Nat)
  recent_activity : Nat
deriving DecidableEq, Repr

/-- Result of `get_user_health_summary`: the `{"error": ...}` dict for an
unknown user, or a summary. -/
inductive SummaryResult where
  | errorNoRecords
  | ok (s : Summary)
deriving DecidableEq, Repr

/-- The `sum(len(records) for records in timeline.records_by_year.values())`. -/
def PatientTimeline.totalRecords (tl : PatientTimeline) : Nat :=
  (tl.records_by_year.map (fun e => e.2.length)).sum

/-- The summary computed from a timeline at current time `now` (the body of
`get_user_health_summary` past the cache check). -/
def computeSummary (tl : PatientTimeline) (now : DT) : Summary :=
  { total_records := tl.totalRecords,
    critical_conditions := tl.get_critical_records.length,
    most_visited_doctors := tl.get_most_visited_doctors 3,
    common_conditions := tl.get_common_conditions 5,
    recent_activity :=
      (tl.records_by_year.map (fun e =>
        (e.2.filter (fun r => decide (daysBetween now r.record_date ≤ 30))).length)).sum }

/-- Engine state: one timeline per user, the singleton analytics, queue and
cache.  Cached values are Python `None` (`Option.none`, the invalidation
marker) or a summary dict. -/
structure Aggregator where
  user_timelines : List (Int × PatientTimeline)
  doctor_analytics : DoctorAnalytics
  treatment_queue : TreatmentPriorityQueue
  cache : HealthDataCache (Option Summary)
deriving DecidableEq

/-- The `HealthMetricsAggregator()`: empty state, cache capacity 100. -/
def Aggregator.init : Aggregator :=
  { user_timelines := [], doctor_analytics := DoctorAnalytics.init,
    treatment_queue := TreatmentPriorityQueue.init,
    cache := HealthDataCache.init (Option Summary) 100 }

/-- The `add_health_record`: build the record (severity derived), create the
user's timeline lazily, insert, then put `None` under the
`"user_timeline_{user_id}"` key.  `none` models a cache-eviction crash. -/
def Aggregator.add_health_record (a : Aggregator) (rd : RecordData) :
    Option Aggregator :=
  let record := mkHealthRecord rd.record_id rd.user_id rd.doctor_id
    rd.diagnosis rd.record_date rd.file_path
  let tl := (alookup a.user_timelines record.user_id).getD PatientTimeline.init
  let timelines := aset a.user_timelines record.user_id (tl.add_record record)
  match a.cache.put ("user_timeline_" ++ toString record.user_id) none with
  | none => none
  | some c => some { a with user_timelines := timelines, cache := c }

/-- The `get_user_health_summary` at current time `now`: read the cache under
`"user_summary_{user_id}"`; the stored value is `None` or a (nonempty,
hence truthy) summary dict, so `if cached:` is a test for a stored summary.
On miss: unknown user gives the error dict; otherwise compute, cache, and
return the summary. -/
def Aggregator.get_user_health_summary (a : Aggregator) (now : DT)
    (user_id : Int) : Option (SummaryResult × Aggregator) :=
  let key := "user_summary_" ++ toString user_id
  let g := a.cache.get key
  let a1 : Aggregator := { a with cache := g.2 }
  match g.1.getD none with
  | some s => some (.ok s, a1)
  | none =>
    match alookup a.user_timelines user_id with
    | none => some (.errorNoRecords, a1)
    | some tl =>
      let s := computeSummary tl now
      match a1.cache.put key (some s) with
      | none => none
      | some c => some (.ok s, { a1 with cache := c })

/-- The dict returned by `get_system_analytics` (`avg_records_per_user`, a
Python float division of two ints, is modelled as an exact rational). -/
structure Analytics where
  total_users : Nat
  total_records : Nat
  severity_distribution : List (String × Nat)
  avg_records_per_user : ℚ
deriving DecidableEq, Repr

/-- The `get_system_analytics`, computed fresh from the timelines. -/
def Aggregator.get_system_analytics (a : Aggregator) : Analytics :=
  let total_users := a.user_timelines.length
  let total_records := (a.user_timelines.map (fun e => e.2.totalRecords)).sum
  let dist := a.user_timelines.foldl
    (fun d e => e.2.severity_index.foldl
      (fun d se =>
        aset d se.1.value ((alookup d se.1.value).getD 0 + se.2.length)) d) []
  { total_users := total_users, total_records := total_records,
    severity_distribution := dist,
    avg_records_per_user :=
      if 0 < total_users then (total_records : ℚ) / (total_users : ℚ) else 0 }

/-! ### Lemmas about `sinsert` / `ssort` -/

theorem sinsert_perm {α : Type} (le : α → α → Bool) (x : α) (l : List α) :
    (sinsert le x l).Perm (x :: l) := by
  induction l with
  | nil => exact List.Perm.refl _
  | cons y t ih =>
    simp only [sinsert]
    by_cases h : le y x
    · rw [if_pos h]
      exact (ih.cons y).trans (List.Perm.swap x y t)
    · rw [if_neg h]

theorem ssort_core_perm {α : Type} (le : α → α → Bool) :
    ∀ (l acc : List α),
      (l.foldl (fun a x => sinsert le x a) acc).Perm (acc ++ l)
  | [], acc => by simp
  | x :: t, acc => by
    have h1 := ssort_core_perm le t (sinsert le x acc)
    refine h1.trans ?_
    have h2 : (sinsert le x acc ++ t).Perm ((x :: acc) ++ t) :=
      (sinsert_perm le x acc).append_right t
    exact h2.trans (List.perm_middle.symm)

theorem ssort_perm {α : Type} (le : α → α → Bool) (l : List α) :
    (ssort le l).Perm l := by
  simpa using ssort_core_perm le l []

theorem sinsert_sorted {α : Type} {le : α → α → Bool}
    (htrans : ∀ a b c, le a b = true → le b c = true → le a c = true)
    (htot : ∀ a b, le a b = true ∨ le b a = true) (x : α) :
    ∀ {l : List α}, List.Sorted (fun a b => le a b = true) l →
      List.Sorted (fun a b => le a b = true) (sinsert le x l) := by
  intro l
  induction l with
  | nil => intro _; simp [sinsert]
  | cons y t ih =>
    intro hs
    rw [List.sorted_cons] at hs
    obtain ⟨hy, ht⟩ := hs
    simp only [sinsert]
    by_cases h : le y x
    · rw [if_pos h]
      rw [List.sorted_cons]
      refine ⟨?_, ih ht⟩
      intro b hb
      have hb' : b ∈ x :: t := (sinsert_perm le x t).mem_iff.mp hb
      rcases List.mem_cons.mp hb' with h1 | h1
      · exact h1 ▸ h
      · exact hy b h1
    · rw [if_neg h]
      have hxy : le x y = true := by
        rcases htot x y with h1 | h1
        · exact h1
        · exact absurd h1 h
      rw [List.sorted_cons]
      refine ⟨?_, by rw [List.sorted_cons]; exact ⟨hy, ht⟩⟩
      intro b hb
      rcases List.mem_cons.mp hb with h1 | h1
      · exact h1 ▸ hxy
      · exact htrans x y b hxy (hy b h1)

theorem ssort_sorted {α : Type} {le : α → α → Bool}
    (htrans : ∀ a b c, le a b = true → le b c = true → le a c = true)
    (htot : ∀ a b, le a b = true ∨ le b a = true) (l : List α) :
    List.Sorted (fun a b => le a b = true) (ssort le l) := by
  suffices h : ∀ (l acc : List α),
      List.Sorted (fun a b => le a b = true) acc →
      List.Sorted (fun a b => le a b = true)
        (l.foldl (fun a x => sinsert le x a) acc) by
    exact h l [] (by simp)
  intro l
  induction l with
  | nil => intro acc h; simpa using h
  | cons x t ih =>
    intro acc h
    exact ih (sinsert le x acc) (sinsert_sorted htrans htot x h)

/-! ### Lemmas about `popMin` / `popK` -/

theorem popMin_eq_none {α : Type} (le : α → α → Bool) (l : List α) :
    popMin le l = none ↔ l = [] := by
  cases l with
  | nil => simp [popMin]
  | cons x t =>
    simp only [popMin]
    cases h : popMin le t with
    | none => simp
    | some p =>
      by_cases hle : le x p.1
      · simp [hle]
      · simp [hle]

theorem popMin_perm {α : Type} (le : α → α → Bool) :
    ∀ {l : List α} {m : α} {r : List α},
      popMin le l = some (m, r) → l.Perm (m :: r) := by
  intro l
  induction l with
  | nil => intro m r h; simp [popMin] at h
  | cons x t ih =>
    intro m r h
    simp only [popMin] at h
    cases hp : popMin le t with
    | none =>
      rw [hp] at h
      have ht : t = [] := (popMin_eq_none le t).mp hp
      cases h
      subst ht
      exact List.Perm.refl _
    | some p =>
      obtain ⟨pm, pr⟩ := p
      simp only [hp] at h
      by_cases hle : le x pm
      · rw [if_pos hle] at h
        simp only [Option.some.injEq, Prod.mk.injEq] at h
        obtain ⟨hm, hr⟩ := h
        subst hm
        subst hr
        exact List.Perm.refl _
      · rw [if_neg hle] at h
        simp only [Option.some.injEq, Prod.mk.injEq] at h
        obtain ⟨hm, hr⟩ := h
        subst hm
        subst hr
        exact ((ih hp).cons x).trans (List.Perm.swap pm x pr)

theorem popMin_least {α : Type} {le : α → α → Bool}
    (hrefl : ∀ a, le a a = true)
    (htrans : ∀ a b c, le a b = true → le b c = true → le a c = true)
    (htot : ∀ a b, le a b = true ∨ le b a = true) :
    ∀ {l : List α} {m : α} {r : List α},
      popMin le l = some (m, r) → ∀ y ∈ l, le m y = true := by
  intro l
  induction l with
  | nil => intro m r h; simp [popMin] at h
  | cons x t ih =>
    intro m r h y hy
    simp only [popMin] at h
    cases hp : popMin le t with
    | none =>
      rw [hp] at h
      have ht : t = [] := (popMin_eq_none le t).mp hp
      cases h
      subst ht
      rcases List.mem_cons.mp hy with h1 | h1
      · exact h1 ▸ hrefl x
      · simp at h1
    | some p =>
      obtain ⟨pm, pr⟩ := p
      simp only [hp] at h
      have hleast := ih hp
      by_cases hle : le x pm
      · rw [if_pos hle] at h
        simp only [Option.some.injEq, Prod.mk.injEq] at h
        obtain ⟨hm, hr⟩ := h
        subst hm
        rcases List.mem_cons.mp hy with h1 | h1
        · exact h1 ▸ hrefl x
        · exact htrans x pm y hle (hleast y h1)
      · rw [if_neg hle] at h
        simp only [Option.some.injEq, Prod.mk.injEq] at h
        obtain ⟨hm, hr⟩ := h
        subst hm
        rcases List.mem_cons.mp hy with h1 | h1
        · subst h1
          rcases htot y pm with h2 | h2
          · exact absurd h2 hle
          · exact h2
        · exact hleast y h1

theorem ssort_popMin {α : Type} {le : α → α → Bool}
    (hrefl : ∀ a, le a a = true)
    (htrans : ∀ a b c, le a b = true → le b c = true → le a c = true)
    (htot : ∀ a b, le a b = true ∨ le b a = true)
    (hanti : ∀ a b, le a b = true → le b a = true → a = b)
    {l : List α} {m : α} {r : List α} (h : popMin le l = some (m, r)) :
    ssort le l = m :: ssort le r := by
  haveI : IsAntisymm α (fun a b => le a b = true) := ⟨hanti⟩
  apply List.eq_of_perm_of_sorted
    (r := fun a b => le a b = true)
  · exact (ssort_perm le l).trans
      ((popMin_perm le h).trans ((ssort_perm le r).symm.cons m))
  · exact ssort_sorted htrans htot l
  · rw [List.sorted_cons]
    refine ⟨?_, ssort_sorted htrans htot r⟩
    intro b hb
    have hb' : b ∈ l := (popMin_perm le h).mem_iff.mpr
      (List.mem_cons_of_mem m ((ssort_perm le r).mem_iff.mp hb))
    exact popMin_least hrefl htrans htot h b hb'

theorem popK_spec {α : Type} {le : α → α → Bool}
    (hrefl : ∀ a, le a a = true)
    (htrans : ∀ a b c, le a b = true → le b c = true → le a c = true)
    (htot : ∀ a b, le a b = true ∨ le b a = true)
    (hanti : ∀ a b, le a b = true → le b a = true → a = b) :
    ∀ (k : Nat) (l : List α),
      (popK le k l).1 = (ssort le l).take k ∧
      (popK le k l).2.Perm ((ssort le l).drop k) := by
  intro k
  induction k with
  | zero => intro l; exact ⟨rfl, (ssort_perm le l).symm⟩
  | succ k ih =>
    intro l
    simp only [popK]
    cases hp : popMin le l with
    | none =>
      have hl : l = [] := (popMin_eq_none le l).mp hp
      subst hl
      simp [ssort]
    | some p =>
      have heq : ssort le l = p.1 :: ssort le p.2 :=
        ssort_popMin hrefl htrans htot hanti (by rw [hp])
      constructor
      · simp only [heq, List.take_succ_cons]
        exact congrArg (p.1 :: ·) (ih p.2).1
      · simp only [heq, List.drop_succ_cons]
        exact (ih p.2).2

theorem ssort_eq_of_perm {α : Type} {le : α → α → Bool}
    (htrans : ∀ a b c, le a b = true → le b c = true → le a c = true)
    (htot : ∀ a b, le a b = true ∨ le b a = true)
    (hanti : ∀ a b, le a b = true → le b a = true → a = b)
    {l l' : List α} (h : l.Perm l') : ssort le l = ssort le l' := by
  haveI : IsAntisymm α (fun a b => le a b = true) := ⟨hanti⟩
  exact List.eq_of_perm_of_sorted
    ((ssort_perm le l).trans (h.trans (ssort_perm le l').symm))
    (ssort_sorted htrans htot l) (ssort_sorted htrans htot l')

/-! ### Order properties of the tuple relations -/

theorem workLe_refl (a : Int × Int) : workLe a a = true := by
  simp [workLe]

theorem workLe_trans (a b c : Int × Int) :
    workLe a b = true → workLe b c = true → workLe a c = true := by
  simp only [workLe, Bool.or_eq_true, Bool.and_eq_true, decide_eq_true_eq]
  omega

theorem workLe_total (a b : Int × Int) :
    workLe a b = true ∨ workLe b a = true := by
  simp only [workLe, Bool.or_eq_true, Bool.and_eq_true, decide_eq_true_eq]
  omega

theorem workLe_antisymm (a b : Int × Int) :
    workLe a b = true → workLe b a = true → a = b := by
  obtain ⟨a1, a2⟩ := a
  obtain ⟨b1, b2⟩ := b
  simp only [workLe, Bool.or_eq_true, Bool.and_eq_true, decide_eq_true_eq,
    Prod.mk.injEq]
  omega

theorem urgLe_refl (a : Int × Int × Int) : urgLe a a = true := by
  simp [urgLe]

theorem urgLe_trans (a b c : Int × Int × Int) :
    urgLe a b = true → urgLe b c = true → urgLe a c = true := by
  simp only [urgLe, Bool.or_eq_true, Bool.and_eq_true, decide_eq_true_eq]
  omega

theorem urgLe_total (a b : Int × Int × Int) :
    urgLe a b = true ∨ urgLe b a = true := by
  simp only [urgLe, Bool.or_eq_true, Bool.and_eq_true, decide_eq_true_eq]
  omega

theorem urgLe_antisymm (a b : Int × Int × Int) :
    urgLe a b = true → urgLe b a = true → a = b := by
  obtain ⟨a1, a2, a3⟩ := a
  obtain ⟨b1, b2, b3⟩ := b
  simp only [urgLe, Bool.or_eq_true, Bool.and_eq_true, decide_eq_true_eq,
    Prod.mk.injEq]
  omega

theorem recDesc_trans (a b c : HealthRecord) :
    recDesc a b = true → recDesc b c = true → recDesc a c = true := by
  simp only [recDesc, decide_eq_true_eq]
  omega

theorem recDesc_total (a b : HealthRecord) :
    recDesc a b = true ∨ recDesc b a = true := by
  simp only [recDesc, decide_eq_true_eq]
  omega

/-! ### Lemmas about association lists -/

theorem alookup_aset_self {κ β : Type} [DecidableEq κ] (m : List (κ × β))
    (k : κ) (v : β) : alookup (aset m k v) k = some v := by
  induction m with
  | nil => simp [aset, alookup]
  | cons e t ih =>
    obtain ⟨ek, ev⟩ := e
    simp only [aset]
    by_cases h : k = ek
    · rw [if_pos h]
      simp [alookup, h]
    · rw [if_neg h]
      simp [alookup, h, ih]

theorem alookup_aset_ne {κ β : Type} [DecidableEq κ] (m : List (κ × β))
    (k k' : κ) (v : β) (hne : k' ≠ k) :
    alookup (aset m k v) k' = alookup m k' := by
  induction m with
  | nil => simp [aset, alookup, hne]
  | cons e t ih =>
    obtain ⟨ek, ev⟩ := e
    simp only [aset]
    by_cases h : k = ek
    · rw [if_pos h]
      subst h
      simp [alookup, hne]
    · rw [if_neg h]
      by_cases h2 : k' = ek
      · simp [alookup, h2]
      · simp [alookup, h2, ih]

theorem alookup_adel_ne {κ β : Type} [DecidableEq κ] (m : List (κ × β))
    (k k' : κ) (hne : k' ≠ k) :
    alookup (adel m k) k' = alookup m k' := by
  induction m with
  | nil => simp [adel]
  | cons e t ih =>
    obtain ⟨ek, ev⟩ := e
    simp only [adel]
    by_cases h : k = ek
    · rw [if_pos h]
      subst h
      simp [alookup, hne]
    · rw [if_neg h]
      by_cases h2 : k' = ek
      · simp [alookup, h2]
      · simp [alookup, h2, ih]

/-- Keys of an association list (the dict's key view, in dict order). -/
def akeys {κ β : Type} (m : List (κ × β)) : List κ := m.map Prod.fst

theorem akeys_aset_present {κ β : Type} [DecidableEq κ] {m : List (κ × β)}
    {k : κ} (v : β) (h : (alookup m k).isSome) :
    akeys (aset m k v) = akeys m := by
  induction m with
  | nil => simp [alookup] at h
  | cons e t ih =>
    obtain ⟨ek, ev⟩ := e
    simp only [aset]
    by_cases hk : k = ek
    · rw [if_pos hk]
      simp [akeys]
    · rw [if_neg hk]
      simp only [alookup, if_neg hk] at h
      simp [akeys] at ih ⊢
      exact ih h

theorem akeys_aset_absent {κ β : Type} [DecidableEq κ] {m : List (κ × β)}
    {k : κ} (v : β) (h : alookup m k = none) :
    akeys (aset m k v) = akeys m ++ [k] := by
  induction m with
  | nil => simp [aset, akeys]
  | cons e t ih =>
    obtain ⟨ek, ev⟩ := e
    simp only [aset]
    by_cases hk : k = ek
    · simp [alookup, hk] at h
    · rw [if_neg hk]
      simp only [alookup, if_neg hk] at h
      simp [akeys] at ih ⊢
      exact ih h

theorem akeys_adel {κ β : Type} [DecidableEq κ] (m : List (κ × β)) (k : κ) :
    akeys (adel m k) = (akeys m).erase k := by
  induction m with
  | nil => simp [adel, akeys]
  | cons e t ih =>
    obtain ⟨ek, ev⟩ := e
    simp only [adel]
    by_cases hk : k = ek
    · rw [if_pos hk]
      subst hk
      simp [akeys, List.erase_cons_head]
    · rw [if_neg hk]
      have : (ek == k) = false := by
        simp [Ne.symm hk]
      simp only [akeys, List.map_cons, List.erase_cons, this, if_neg]
      simpa [akeys] using ih

theorem alookup_isSome_iff_mem_akeys {κ β : Type} [DecidableEq κ]
    (m : List (κ × β)) (k : κ) : (alookup m k).isSome ↔ k ∈ akeys m := by
  induction m with
  | nil => simp [alookup, akeys]
  | cons e t ih =>
    obtain ⟨ek, ev⟩ := e
    simp only [alookup, akeys, List.map_cons, List.mem_cons]
    by_cases hk : k = ek
    · simp [hk]
    · simp [hk, ih, akeys]

theorem alookup_eq_none_iff {κ β : Type} [DecidableEq κ]
    (m : List (κ × β)) (k : κ) : alookup m k = none ↔ k ∉ akeys m := by
  rw [← alookup_isSome_iff_mem_akeys]
  cases alookup m k <;> simp

theorem alookup_adel_self {κ β : Type} [DecidableEq κ] {m : List (κ × β)}
    {k : κ} (h : (akeys m).Nodup) : alookup (adel m k) k = none := by
  rw [alookup_eq_none_iff, akeys_adel]
  intro hmem
  exact (List.Nodup.not_mem_erase h) hmem

theorem length_aset_present {κ β : Type} [DecidableEq κ] {m : List (κ × β)}
    {k : κ} (v : β) (h : (alookup m k).isSome) :
    (aset m k v).length = m.length := by
  have := akeys_aset_present v h
  have h1 : (akeys (aset m k v)).length = (akeys m).length := by rw [this]
  simpa [akeys] using h1

theorem length_aset_absent {κ β : Type} [DecidableEq κ] {m : List (κ × β)}
    {k : κ} (v : β) (h : alookup m k = none) :
    (aset m k v).length = m.length + 1 := by
  have := akeys_aset_absent v h
  have h1 : (akeys (aset m k v)).length = (akeys m ++ [k]).length := by rw [this]
  simpa [akeys] using h1

theorem length_adel_present {κ β : Type} [DecidableEq κ] {m : List (κ × β)}
    {k : κ} (h : (alookup m k).isSome) :
    (adel m k).length + 1 = m.length := by
  have hm : k ∈ akeys m := (alookup_isSome_iff_mem_akeys m k).mp h
  have h1 : (akeys (adel m k)).length = ((akeys m).erase k).length := by
    rw [akeys_adel]
  have h2 : ((akeys m).erase k).length = (akeys m).length - 1 :=
    List.length_erase_of_mem hm
  have h3 : 1 ≤ (akeys m).length := by
    cases m with
    | nil => simp [akeys] at hm
    | cons e t => simp [akeys]
  simp only [akeys, List.length_map] at h1 h2 h3
  omega

/-! ### C6: severity classification -/

/-- C6: Severity classification is a total, deterministic, case-insensitive
pure function of the diagnosis text: CRITICAL iff the lowercased diagnosis
contains a CRITICAL keyword, else MODERATE iff it contains a MODERATE
keyword, else MILD; `"Type 2 Diabetes"` is CRITICAL, `"Seasonal Allergies"`
MODERATE, `"Sprained ankle"` MILD, and a CRITICAL match dominates a
MODERATE one. -/
theorem C6_severity_classifier :
    (∀ d : List Char,
      (calcSeverity d = .critical ↔
        criticalKeywords.any
          (fun k => strContains k (d.map Char.toLower)) = true) ∧
      (calcSeverity d = .moderate ↔
        (criticalKeywords.any
          (fun k => strContains k (d.map Char.toLower)) = false ∧
         moderateKeywords.any
          (fun k => strContains k (d.map Char.toLower)) = true)) ∧
      (calcSeverity d = .mild ↔
        (criticalKeywords.any
          (fun k => strContains k (d.map Char.toLower)) = false ∧
         moderateKeywords.any
          (fun k => strContains k (d.map Char.toLower)) = false))) ∧
    (∀ d₁ d₂ : List Char, d₁.map Char.toLower = d₂.map Char.toLower →
      calcSeverity d₁ = calcSeverity d₂) ∧
    calcSeverity "Type 2 Diabetes".toList = .critical ∧
    calcSeverity "Seasonal Allergies".toList = .moderate ∧
    calcSeverity "Sprained ankle".toList = .mild := by
  refine ⟨?_, ?_, by decide, by decide, by decide⟩
  · intro d
    cases h1 : criticalKeywords.any
        (fun k => strContains k (d.map Char.toLower)) <;>
      cases h2 : moderateKeywords.any
        (fun k => strContains k (d.map Char.toLower)) <;>
      simp [calcSeverity, h1, h2]
  · intro d₁ d₂ h
    simp only [calcSeverity, h]

/-- Witness for C6 at concrete inputs: case variants classify alike. -/
theorem C6_severity_classifier_witness :
    "TYPE 2 DIABETES".toList.map Char.toLower =
      "type 2 diabetes".toList.map Char.toLower ∧
    calcSeverity "TYPE 2 DIABETES".toList =
      calcSeverity "type 2 diabetes".toList :=
  ⟨by decide, C6_severity_classifier.2.1 _ _ (by decide)⟩

/-! ### C2: `get_least_busy_doctors` drains the workload heap -/

/-- Two doctors registered with `patient_count = 0`. -/
def c2Doctors : DoctorAnalytics :=
  (DoctorAnalytics.init.add_doctor
      ⟨1, "Dr A", "general", "", "", 0, 0⟩).add_doctor
    ⟨2, "Dr B", "general", "", "", 0, 0⟩

/-- C2 (code bug): `least_busy(2)` is destructive.  The first call on two
registered doctors returns `[1, 2]` but pops them off the workload heap,
leaving it empty, so the identical second call returns `[]` — contradicting
the specified non-destructive read (`least_busy(2)` twice must return the
same two ids both times). -/
theorem C2_least_busy_drains_heap :
    (c2Doctors.get_least_busy_doctors 2).1 = [1, 2] ∧
    ((c2Doctors.get_least_busy_doctors 2).2.get_least_busy_doctors 2).1
      = [] ∧
    ((c2Doctors.get_least_busy_doctors 2).2).workload_heap = [] := by
  decide

/-! ### C5: overdue membership is decided at insert time only -/

/-- An operation stream against one `TreatmentPriorityQueue`, each `add`
carrying the wall-clock instant at which it runs. -/
inductive QueueOp where
  | add (now treatment_id follow_up_date : Int) (sev : Severity)
  | nextUrgent (k : Nat)

def runQueue (q : TreatmentPriorityQueue) : List QueueOp → TreatmentPriorityQueue
  | [] => q
  | .add now tid fud sev :: ops => runQueue (q.add_treatment now tid fud sev) ops
  | .nextUrgent k :: ops => runQueue (q.get_next_urgent_treatments k).2 ops

/-- The ids whose follow-up date was strictly past at their insert instant. -/
def overdueSpec (ops : List QueueOp) : Finset Int :=
  ops.foldl
    (fun s op =>
      match op with
      | QueueOp.add now tid fud _ => if fud < now then insert tid s else s
      | QueueOp.nextUrgent _ => s) ∅

theorem runQueue_overdue (ops : List QueueOp) :
    ∀ q : TreatmentPriorityQueue,
      (runQueue q ops).overdue_treatments = ops.foldl
        (fun s op =>
          match op with
          | QueueOp.add now tid fud _ => if fud < now then insert tid s else s
          | QueueOp.nextUrgent _ => s) q.overdue_treatments := by
  induction ops with
  | nil => intro q; rfl
  | cons op ops ih =>
    intro q
    cases op with
    | add now tid fud sev =>
      simp only [runQueue, List.foldl_cons]
      rw [ih]
      rfl
    | nextUrgent k =>
      simp only [runQueue, List.foldl_cons]
      rw [ih]
      rfl

/-- C5: In every run, `overdue()` is exactly the set of treatment ids whose
follow-up date was strictly before the current time at the instant of their
`add_treatment` call; a past-due insert lands in `overdue()`, while a
future-dated insert never appears there, even after operations at later
instants by which its date has passed. -/
theorem C5_overdue_insert_time_only :
    (∀ ops : List QueueOp,
      (runQueue TreatmentPriorityQueue.init ops).get_overdue_treatments =
        overdueSpec ops) ∧
    (runQueue TreatmentPriorityQueue.init
        [.add 200 1 50 .mild]).get_overdue_treatments = {1} ∧
    (runQueue TreatmentPriorityQueue.init
        [.add 0 2 100 .mild, .nextUrgent 5,
         .add 200 3 50 .critical]).get_overdue_treatments = {3} := by
  refine ⟨?_, by decide, by decide⟩
  intro ops
  exact runQueue_overdue ops TreatmentPriorityQueue.init

/-! ### C3: `get_next_urgent_treatments` is non-destructive -/

/-- C3: `next_urgent(k)` leaves the urgency structure's multiset of entries
(and the overdue set) unchanged, and an immediately repeated call returns
the same sequence of treatment ids. -/
theorem C3_next_urgent_nondestructive :
    ∀ (q : TreatmentPriorityQueue) (k : Nat),
      ((q.get_next_urgent_treatments k).2).urgent_treatments.Perm
        q.urgent_treatments ∧
      ((q.get_next_urgent_treatments k).2).overdue_treatments =
        q.overdue_treatments ∧
      (((q.get_next_urgent_treatments k).2).get_next_urgent_treatments k).1 =
        (q.get_next_urgent_treatments k).1 := by
  intro q k
  have hspec := popK_spec urgLe_refl urgLe_trans urgLe_total urgLe_antisymm
  obtain ⟨h1, h2⟩ := hspec (min k q.urgent_treatments.length) q.urgent_treatments
  simp only [TreatmentPriorityQueue.get_next_urgent_treatments]
  have hperm : ((popK urgLe (min k q.urgent_treatments.length)
      q.urgent_treatments).2 ++
      (popK urgLe (min k q.urgent_treatments.length)
        q.urgent_treatments).1).Perm q.urgent_treatments := by
    have ha := h2.append_right
      (popK urgLe (min k q.urgent_treatments.length) q.urgent_treatments).1
    have hb := @List.perm_append_comm _
      ((ssort urgLe q.urgent_treatments).drop
        (min k q.urgent_treatments.length))
      ((ssort urgLe q.urgent_treatments).take
        (min k q.urgent_treatments.length))
    have hc : (ssort urgLe q.urgent_treatments).take
          (min k q.urgent_treatments.length) ++
        (ssort urgLe q.urgent_treatments).drop
          (min k q.urgent_treatments.length) =
        ssort urgLe q.urgent_treatments :=
      List.take_append_drop _ _
    have hd : ((ssort urgLe q.urgent_treatments).drop
        (min k q.urgent_treatments.length) ++
        (popK urgLe (min k q.urgent_treatments.length)
          q.urgent_treatments).1).Perm q.urgent_treatments := by
      rw [h1]
      exact (hc ▸ hb).trans (ssort_perm urgLe q.urgent_treatments)
    exact ha.trans hd
  refine ⟨hperm, trivial, ?_⟩
  have hlen := hperm.length_eq
  obtain ⟨h3, _⟩ := hspec
    (min k ((popK urgLe (min k q.urgent_treatments.length)
      q.urgent_treatments).2 ++
      (popK urgLe (min k q.urgent_treatments.length)
        q.urgent_treatments).1).length)
    ((popK urgLe (min k q.urgent_treatments.length)
      q.urgent_treatments).2 ++
      (popK urgLe (min k q.urgent_treatments.length)
        q.urgent_treatments).1)
  rw [h3, hlen,
    ssort_eq_of_perm urgLe_trans urgLe_total urgLe_antisymm hperm, h1]


/-! ### C4: priority formula and urgency ordering -/

/-- Several treatments added to a fresh queue at one fixed instant `now`;
each entry is `(treatment_id, follow_up_date, severity)`. -/
def buildQueue (now : Int) (ts : List (Int × Int × Severity)) :
    TreatmentPriorityQueue :=
  ts.foldl (fun q t => q.add_treatment now t.1 t.2.1 t.2.2)
    TreatmentPriorityQueue.init

theorem buildQueue_entries (now : Int) :
    ∀ (ts : List (Int × Int × Severity)) (q : TreatmentPriorityQueue),
      (ts.foldl (fun q t => q.add_treatment now t.1 t.2.1 t.2.2)
          q).urgent_treatments =
        q.urgent_treatments ++
          ts.map (fun t => (calculatePriority now t.2.1 t.2.2, t.2.1, t.1)) := by
  intro ts
  induction ts with
  | nil => intro q; simp
  | cons t ts ih =>
    intro q
    simp only [List.foldl_cons, List.map_cons]
    rw [ih]
    show (q.add_treatment now t.1 t.2.1 t.2.2).urgent_treatments ++ _ = _
    simp [TreatmentPriorityQueue.add_treatment]

/-- C4: With the clock fixed, each queued entry's priority is
`(follow_up_date − now).days + offset(severity)` with offsets 0/10/20 for
CRITICAL/MODERATE/MILD, and `next_urgent(k)` returns the first `k`
treatment ids in increasing lexicographic `(priority, follow_up_date,
treatment_id)` order; a CRITICAL treatment due in 5 days (priority 5)
precedes a MILD one due in 1 day (priority 21). -/
theorem C4_priority_and_ordering :
    severityModifier .critical = 0 ∧ severityModifier .moderate = 10 ∧
    severityModifier .mild = 20 ∧
    (∀ (now fud : Int) (sev : Severity),
      calculatePriority now fud sev =
        Int.fdiv (fud - now) 86400 + severityModifier sev) ∧
    (∀ (now : Int) (ts : List (Int × Int × Severity)) (k : Nat),
      (buildQueue now ts).urgent_treatments =
        ts.map (fun t => (calculatePriority now t.2.1 t.2.2, t.2.1, t.1)) ∧
      ∃ sortedE : List (Int × Int × Int),
        sortedE.Perm (buildQueue now ts).urgent_treatments ∧
        List.Sorted (fun a b => urgLe a b = true) sortedE ∧
        ((buildQueue now ts).get_next_urgent_treatments k).1 =
          (sortedE.take k).map (fun e => e.2.2)) ∧
    (buildQueue 0 [(1, 5 * 86400, .critical),
        (2, 1 * 86400, .mild)]).urgent_treatments =
      [(5, 5 * 86400, 1), (21, 1 * 86400, 2)] ∧
    ((buildQueue 0 [(1, 5 * 86400, .critical),
        (2, 1 * 86400, .mild)]).get_next_urgent_treatments 1).1 = [1] := by
  refine ⟨rfl, rfl, rfl, fun _ _ _ => rfl, ?_, by decide, by decide⟩
  intro now ts k
  have hE : (buildQueue now ts).urgent_treatments =
      ts.map (fun t => (calculatePriority now t.2.1 t.2.2, t.2.1, t.1)) := by
    simpa using buildQueue_entries now ts TreatmentPriorityQueue.init
  refine ⟨hE, ssort urgLe (buildQueue now ts).urgent_treatments,
    (ssort_perm _ _), ssort_sorted urgLe_trans urgLe_total _, ?_⟩
  simp only [TreatmentPriorityQueue.get_next_urgent_treatments]
  obtain ⟨h1, _⟩ := popK_spec urgLe_refl urgLe_trans urgLe_total urgLe_antisymm
    (min k (buildQueue now ts).urgent_treatments.length)
    (buildQueue now ts).urgent_treatments
  rw [h1]
  have hlen : (ssort urgLe (buildQueue now ts).urgent_treatments).length =
      (buildQueue now ts).urgent_treatments.length :=
    (ssort_perm urgLe _).length_eq
  rw [← hlen, ← List.take_take, List.take_length]

/-! ### C8: per-year buckets of the timeline -/

def buildTimeline (rs : List HealthRecord) : PatientTimeline :=
  rs.foldl PatientTimeline.add_record PatientTimeline.init

theorem add_record_bucket (tl : PatientTimeline) (r : HealthRecord)
    (y : Int) :
    (tl.add_record r).get_records_by_year y =
      if r.record_date.year = y then
        ssort recDesc (tl.get_records_by_year y ++ [r])
      else tl.get_records_by_year y := by
  simp only [PatientTimeline.add_record, PatientTimeline.get_records_by_year,
    dappend]
  by_cases h : r.record_date.year = y
  · rw [if_pos h]
    subst h
    rw [alookup_aset_self, alookup_aset_self]
    rfl
  · rw [if_neg h]
    have hne : y ≠ r.record_date.year := fun heq => h heq.symm
    rw [alookup_aset_ne _ _ _ _ hne, alookup_aset_ne _ _ _ _ hne]

theorem buildTimeline_bucket :
    ∀ (rs : List HealthRecord) (tl : PatientTimeline) (y : Int),
      ((rs.foldl PatientTimeline.add_record tl).get_records_by_year y).Perm
        (tl.get_records_by_year y ++
          rs.filter (fun r => decide (r.record_date.year = y))) ∧
      (List.Sorted (fun a b => recDesc a b = true)
          (tl.get_records_by_year y) →
        List.Sorted (fun a b => recDesc a b = true)
          ((rs.foldl PatientTimeline.add_record tl).get_records_by_year y)) := by
  intro rs
  induction rs with
  | nil =>
    intro tl y
    exact ⟨by simp, fun h => h⟩
  | cons r rs ih =>
    intro tl y
    have hb := add_record_bucket tl r y
    simp only [List.foldl_cons, List.filter_cons]
    by_cases h : r.record_date.year = y
    · rw [if_pos h] at hb
      simp [h]
      constructor
      · have hperm1 := (ih (tl.add_record r) y).1
        rw [hb] at hperm1
        refine hperm1.trans ?_
        have h2 := (ssort_perm recDesc
          (tl.get_records_by_year y ++ [r])).append_right
          (rs.filter (fun r => decide (r.record_date.year = y)))
        refine h2.trans ?_
        rw [List.append_assoc, List.singleton_append]
      · intro _
        refine (ih (tl.add_record r) y).2 ?_
        rw [hb]
        exact ssort_sorted recDesc_trans recDesc_total _
    · rw [if_neg h] at hb
      simp [h]
      constructor
      · have hperm1 := (ih (tl.add_record r) y).1
        rw [hb] at hperm1
        exact hperm1
      · intro hs
        refine (ih (tl.add_record r) y).2 ?_
        rw [hb]
        exact hs

/-- Records dated 2023-01-01, 2024-06-01 and 2023-12-01 for one user (timestamps
chosen chronologically consistent with the dates). -/
def c8rec1 : HealthRecord :=
  mkHealthRecord 1 1 1 "checkup".toList ⟨2023, 1672531200⟩ none

def c8rec2 : HealthRecord :=
  mkHealthRecord 2 1 1 "checkup".toList ⟨2024, 1717200000⟩ none

def c8rec3 : HealthRecord :=
  mkHealthRecord 3 1 1 "checkup".toList ⟨2023, 1701388800⟩ none

/-- C8: For every sequence of added records, `get_records_by_year(y)`
returns exactly the added records whose `record_date` lies in year `y`,
sorted descending by record date; on the three-record example the 2023
query returns the 2023-12-01 record before the 2023-01-01 one. -/
theorem C8_records_by_year :
    (∀ (rs : List HealthRecord) (y : Int),
      ((buildTimeline rs).get_records_by_year y).Perm
        (rs.filter (fun r => decide (r.record_date.year = y))) ∧
      List.Sorted (fun a b => recDesc a b = true)
        ((buildTimeline rs).get_records_by_year y)) ∧
    (buildTimeline [c8rec1, c8rec2, c8rec3]).get_records_by_year 2023 =
      [c8rec3, c8rec1] := by
  refine ⟨?_, by decide⟩
  intro rs y
  have h := buildTimeline_bucket rs PatientTimeline.init y
  have hinit : PatientTimeline.init.get_records_by_year y = [] := rfl
  rw [hinit] at h
  exact ⟨by simpa using h.1, h.2 (by simp)⟩


/-! ### C1: cache-key mismatch makes cached summaries stale -/

def c1rd1 : RecordData := ⟨1, 1, 1, "flu".toList, ⟨2024, 100⟩, none⟩

def c1rd2 : RecordData := ⟨2, 1, 1, "flu".toList, ⟨2024, 200⟩, none⟩

/-- add record 1 for user 1; read the summary (cached); add record 2 for
user 1; read the summary again — all summary reads at the same instant. -/
def c1run : Option (SummaryResult × Aggregator) :=
  (Aggregator.init.add_health_record c1rd1).bind fun a1 =>
    (a1.get_user_health_summary ⟨2024, 1000⟩ 1).bind fun p2 =>
      (p2.2.add_health_record c1rd2).bind fun a3 =>
        a3.get_user_health_summary ⟨2024, 1000⟩ 1

/-- C1 (code bug): `add_health_record` writes the invalidation marker under
`"user_timeline_1"` while the summary path reads and writes
`"user_summary_1"`, so the summary issued right after the second insert is
served stale from the cache: it reports `total_records = 1` although the
summary computed from user 1's current Timeline Index has
`total_records = 2`.  The final cache indeed holds the `None` marker under
the timeline key and the stale summary under the summary key. -/
theorem C1_cache_key_mismatch_stale_summary :
    c1run.map (fun p => p.1) =
      some (.ok ⟨1, 0, [(1, 1)], [("flu".toList, 1)], 1⟩) ∧
    c1run.map (fun p =>
        (alookup p.2.user_timelines 1).map
          (fun tl => (computeSummary tl ⟨2024, 1000⟩).total_records)) =
      some (some 2) ∧
    c1run.map (fun p => alookup p.2.cache.cache "user_timeline_1") =
      some (some none) ∧
    c1run.map (fun p =>
        (alookup p.2.cache.cache "user_summary_1").map
          (fun v => v.map (fun s => s.total_records))) =
      some (some (some 1)) := by
  decide

/-! ### C10: the `None` marker is indistinguishable from a miss -/

/-- C10: Through the cache's public interface a value stored as `None` (the
invalidation marker) is indistinguishable from a missing entry: after
`put(k, None)`, `get(k)` returns `None`, exactly as `get` on a key never
inserted; consequently the summary path, which tests the result for
truthiness, treats a present-but-invalidated entry like a miss (it returns
the error dict for an unknown user and a freshly computed summary
otherwise). -/
theorem C10_none_marker_indistinguishable :
    (∀ (s : HealthDataCache (Option Summary)) (k : String)
        (s' : HealthDataCache (Option Summary)),
      s.put k none = some s' → ((s'.get k).1.getD none) = none) ∧
    (∀ (s : HealthDataCache (Option Summary)) (k : String),
      alookup s.cache k = none → ((s.get k).1.getD none) = none) ∧
    (∀ (a : Aggregator) (now : DT) (user_id : Int),
      ((a.cache.get ("user_summary_" ++ toString user_id)).1.getD none)
          = none →
      ∀ r a', a.get_user_health_summary now user_id = some (r, a') →
        (alookup a.user_timelines user_id = none →
          r = .errorNoRecords) ∧
        (∀ tl, alookup a.user_timelines user_id = some tl →
          r = .ok (computeSummary tl now))) := by
  refine ⟨?_, ?_, ?_⟩
  · intro s k s' hput
    simp only [HealthDataCache.put] at hput
    by_cases h1 : (alookup s.cache k).isSome
    · rw [if_pos h1] at hput
      cases hput
      simp [HealthDataCache.get, alookup_aset_self]
    · rw [if_neg h1] at hput
      by_cases h2 : s.max_size ≤ s.cache.length
      · rw [if_pos h2] at hput
        cases ho : s.access_order with
        | nil => rw [ho] at hput; exact absurd hput (by simp)
        | cons o rest =>
          rw [ho] at hput
          cases hput
          simp [HealthDataCache.get, alookup_aset_self]
      · rw [if_neg h2] at hput
        cases hput
        simp [HealthDataCache.get, alookup_aset_self]
  · intro s k h
    simp [HealthDataCache.get, h]
  · intro a now user_id hc r a' hres
    simp only [Aggregator.get_user_health_summary] at hres
    rw [hc] at hres
    constructor
    · intro ht
      rw [ht] at hres
      simp only [Option.some.injEq, Prod.mk.injEq] at hres
      exact hres.1.symm
    · intro tl ht
      rw [ht] at hres
      dsimp only at hres
      cases hput : (a.cache.get ("user_summary_" ++ toString user_id)).2.put
          ("user_summary_" ++ toString user_id)
          (some (computeSummary tl now)) with
      | none =>
        rw [hput] at hres
        simp at hres
      | some c =>
        rw [hput] at hres
        simp only [Option.some.injEq, Prod.mk.injEq] at hres
        exact hres.1.symm

/-- Witness for C10: a concrete capacity-2 cache holding the `None` marker
under `"k"`, and a fresh aggregator state read at a concrete instant. -/
theorem C10_none_marker_witness :
    ((((⟨[("k", none)], ["k"], 2⟩ :
        HealthDataCache (Option Summary)).get "k").1.getD none) = none) ∧
    ((((HealthDataCache.init (Option Summary) 2).get "z").1.getD none)
        = none) :=
  ⟨C10_none_marker_indistinguishable.1
      (HealthDataCache.init (Option Summary) 2) "k" _ (by decide),
    C10_none_marker_indistinguishable.2.1
      (HealthDataCache.init (Option Summary) 2) "z" (by decide)⟩


/-! ### C7: LRU cache invariants -/

/-- A client operation stream against one `HealthDataCache`. -/
inductive CacheOp (α : Type) where
  | get (key : String)
  | put (key : String) (value : α)

/-- Run a stream of cache operations; `none` = an operation raised. -/
def runOps {α : Type} :
    HealthDataCache α → List (CacheOp α) → Option (HealthDataCache α)
  | s, [] => some s
  | s, .get k :: ops => runOps (s.get k).2 ops
  | s, .put k v :: ops =>
    match s.put k v with
    | none => none
    | some t => runOps t ops

/-- Representation invariant of `HealthDataCache`: the recency deque holds
exactly the dict's keys, and the dict's keys are distinct. -/
def CacheWF {α : Type} (s : HealthDataCache α) : Prop :=
  s.access_order.Perm (akeys s.cache) ∧ (akeys s.cache).Nodup

instance {α : Type} (s : HealthDataCache α) : Decidable (CacheWF s) := by
  unfold CacheWF
  infer_instance

theorem cacheWF_init (α : Type) (m : Nat) :
    CacheWF (HealthDataCache.init α m) := by
  constructor <;> simp [HealthDataCache.init, akeys]

theorem mem_order_iff {α : Type} {s : HealthDataCache α} (h : CacheWF s)
    (k : String) : k ∈ s.access_order ↔ (alookup s.cache k).isSome := by
  rw [h.1.mem_iff, alookup_isSome_iff_mem_akeys]

theorem get_state {α : Type} (s : HealthDataCache α) (k : String) :
    (s.get k).2.cache = s.cache ∧ (s.get k).2.max_size = s.max_size := by
  simp only [HealthDataCache.get]
  cases alookup s.cache k <;> exact ⟨rfl, rfl⟩

theorem wf_get {α : Type} {s : HealthDataCache α} (h : CacheWF s)
    (k : String) : CacheWF ((s.get k).2) := by
  simp only [HealthDataCache.get]
  cases hl : alookup s.cache k with
  | none => exact h
  | some v =>
    refine ⟨?_, h.2⟩
    have hk : k ∈ s.access_order :=
      (mem_order_iff h k).mpr (by rw [hl]; rfl)
    exact (List.perm_append_singleton k _).trans
      ((List.perm_cons_erase hk).symm.trans h.1)

theorem put_branches {α : Type} {s : HealthDataCache α} {k : String}
    {v : α} {s' : HealthDataCache α} (hput : s.put k v = some s')
    (h : CacheWF s) :
    CacheWF s' ∧ s'.max_size = s.max_size ∧
      (s.cache.length ≤ s.max_size → s'.cache.length ≤ s.max_size) := by
  simp only [HealthDataCache.put] at hput
  by_cases h1 : (alookup s.cache k).isSome
  · rw [if_pos h1] at hput
    cases hput
    have hk : k ∈ s.access_order := (mem_order_iff h k).mpr h1
    refine ⟨⟨?_, ?_⟩, rfl, ?_⟩
    · dsimp only
      rw [akeys_aset_present v h1]
      exact (List.perm_append_singleton k _).trans
        ((List.perm_cons_erase hk).symm.trans h.1)
    · dsimp only
      rw [akeys_aset_present v h1]
      exact h.2
    · intro hle
      dsimp only
      rw [length_aset_present v h1]
      exact hle
  · rw [if_neg h1] at hput
    have hnone : alookup s.cache k = none :=
      Option.not_isSome_iff_eq_none.mp h1
    by_cases h2 : s.max_size ≤ s.cache.length
    · rw [if_pos h2] at hput
      cases ho : s.access_order with
      | nil => rw [ho] at hput; exact absurd hput (by simp)
      | cons o rest =>
        rw [ho] at hput
        cases hput
        have hoMem : o ∈ s.access_order := by
          rw [ho]; exact List.mem_cons_self o rest
        have hoSome : (alookup s.cache o).isSome := (mem_order_iff h o).mp hoMem
        have hkAdel : alookup (adel s.cache o) k = none := by
          rw [alookup_eq_none_iff, akeys_adel]
          intro hmem
          exact ((alookup_eq_none_iff s.cache k).mp hnone)
            (List.mem_of_mem_erase hmem)
        have hkeys : akeys (aset (adel s.cache o) k v) =
            (akeys s.cache).erase o ++ [k] := by
          rw [akeys_aset_absent v hkAdel, akeys_adel]
        have hrest : rest.Perm ((akeys s.cache).erase o) := by
          have hp := h.1.erase o
          rw [ho, List.erase_cons_head] at hp
          exact hp
        have hkNotInErase : k ∉ (akeys s.cache).erase o := fun hmem =>
          ((alookup_eq_none_iff s.cache k).mp hnone)
            (List.mem_of_mem_erase hmem)
        refine ⟨⟨?_, ?_⟩, rfl, ?_⟩
        · dsimp only
          rw [hkeys]
          exact hrest.append_right [k]
        · dsimp only
          rw [hkeys]
          refine (h.2.erase o).append (by simp) ?_
          intro x hx hmem
          simp only [List.mem_singleton] at hmem
          subst hmem
          exact hkNotInErase hx
        · intro hle
          dsimp only
          have hlen1 := length_adel_present (m := s.cache) (k := o) hoSome
          have hlen2 := length_aset_absent (m := adel s.cache o) (k := k)
            v hkAdel
          omega
    · rw [if_neg h2] at hput
      cases hput
      have hkeys := akeys_aset_absent (m := s.cache) (k := k) v hnone
      refine ⟨⟨?_, ?_⟩, rfl, ?_⟩
      · dsimp only
        rw [hkeys]
        exact h.1.append_right [k]
      · dsimp only
        rw [hkeys]
        refine h.2.append (by simp) ?_
        intro x hx hmem
        have hkmem := (alookup_eq_none_iff s.cache k).mp hnone
        simp only [List.mem_singleton] at hmem
        subst hmem
        exact hkmem hx
      · intro _
        dsimp only
        rw [length_aset_absent v hnone]
        omega

theorem runOps_invariant {α : Type} :
    ∀ (ops : List (CacheOp α)) (s : HealthDataCache α),
      CacheWF s → s.cache.length ≤ s.max_size →
      ∀ s', runOps s ops = some s' →
        CacheWF s' ∧ s'.max_size = s.max_size ∧
          s'.cache.length ≤ s.max_size := by
  intro ops
  induction ops with
  | nil =>
    intro s hwf hle s' hrun
    cases hrun
    exact ⟨hwf, rfl, hle⟩
  | cons op ops ih =>
    intro s hwf hle s' hrun
    cases op with
    | get k =>
      simp only [runOps] at hrun
      obtain ⟨hc, hm⟩ := get_state s k
      have hres := ih ((s.get k).2) (wf_get hwf k)
        (by rw [hc, hm]; exact hle) s' hrun
      rw [hm] at hres
      exact hres
    | put k v =>
      simp only [runOps] at hrun
      cases hput : s.put k v with
      | none => rw [hput] at hrun; exact absurd hrun (by simp)
      | some t =>
        rw [hput] at hrun
        obtain ⟨hwft, hmt, hlent⟩ := put_branches hput hwf
        have hres := ih t hwft (by rw [hmt]; exact hlent hle) s' hrun
        rw [hmt] at hres
        exact hres


theorem survival_aux {α : Type} :
    ∀ (fresh : List (String × α)) (t : HealthDataCache α)
      (pre post : List String) (k : String),
      CacheWF t → t.cache.length = t.max_size →
      t.access_order = pre ++ k :: post →
      (alookup t.cache k).isSome →
      (fresh.map Prod.fst).Nodup →
      (∀ f ∈ fresh.map Prod.fst, alookup t.cache f = none) →
      fresh.length ≤ pre.length →
      ∃ t', runOps t (fresh.map (fun f => CacheOp.put f.1 f.2)) = some t' ∧
        (alookup t'.cache k).isSome := by
  intro fresh
  induction fresh with
  | nil =>
    intro t pre post k hwf _ _ hk _ _ _
    exact ⟨t, rfl, hk⟩
  | cons fv rest ih =>
    intro t pre post k hwf hfull horder hk hnodup hfreshNone hlen
    obtain ⟨f, v⟩ := fv
    cases pre with
    | nil => simp at hlen
    | cons o pre2 =>
      have hfNone : alookup t.cache f = none := hfreshNone f (by simp)
      have hfIsNot : ¬ (alookup t.cache f).isSome = true := by
        rw [hfNone]; simp
      have hcap : t.max_size ≤ t.cache.length := le_of_eq hfull.symm
      have hoMem : o ∈ t.access_order := by
        rw [horder]; exact List.mem_cons_self o _
      have hoSome : (alookup t.cache o).isSome := (mem_order_iff hwf o).mp hoMem
      have hkSome := hk
      have hfo : f ≠ o := by
        intro heq
        rw [← heq, hfNone] at hoSome
        simp at hoSome
      have hko : k ≠ o := by
        have hnd : t.access_order.Nodup := hwf.1.nodup_iff.mpr hwf.2
        rw [horder] at hnd
        have := (List.nodup_cons.mp hnd).1
        intro heq
        exact this (heq ▸ List.mem_append_right pre2 (List.mem_cons_self k post))
      have hkf : k ≠ f := by
        intro heq
        rw [heq, hfNone] at hkSome
        simp at hkSome
      have hput : t.put f v = some
          { cache := aset (adel t.cache o) f v,
            access_order := (pre2 ++ k :: post) ++ [f],
            max_size := t.max_size } := by
        simp only [HealthDataCache.put, if_neg hfIsNot, if_pos hcap, horder,
          List.cons_append]
      have hwf1 := (put_branches hput hwf).1
      have hfAdel : alookup (adel t.cache o) f = none := by
        rw [alookup_adel_ne _ _ _ hfo]
        exact hfNone
      have hfull1 : (aset (adel t.cache o) f v).length = t.max_size := by
        have hlen1 := length_adel_present (m := t.cache) (k := o) hoSome
        have hlen2 := length_aset_absent (m := adel t.cache o) (k := f)
          v hfAdel
        omega
      have horder1 : (pre2 ++ k :: post) ++ [f] = pre2 ++ k :: (post ++ [f]) := by
        simp
      have hk1 : (alookup (aset (adel t.cache o) f v) k).isSome := by
        rw [alookup_aset_ne _ _ _ _ hkf, alookup_adel_ne _ _ _ hko]
        exact hk
      have hnodup1 : (rest.map Prod.fst).Nodup :=
        (List.nodup_cons.mp (by simpa using hnodup)).2
      have hfNotRest : f ∉ rest.map Prod.fst :=
        (List.nodup_cons.mp (by simpa using hnodup)).1
      have hnone1 : ∀ g ∈ rest.map Prod.fst,
          alookup (aset (adel t.cache o) f v) g = none := by
        intro g hg
        have hgf : g ≠ f := fun heq => hfNotRest (heq ▸ hg)
        have hgt : alookup t.cache g = none :=
          hfreshNone g (by simpa using Or.inr hg)
        have hgo : g ≠ o := by
          intro heq
          rw [← heq, hgt] at hoSome
          simp at hoSome
        rw [alookup_aset_ne _ _ _ _ hgf, alookup_adel_ne _ _ _ hgo]
        exact hgt
      have hlen1 : rest.length ≤ pre2.length := by
        simp only [List.length_cons] at hlen
        omega
      obtain ⟨t', hrun, hkt'⟩ := ih
        { cache := aset (adel t.cache o) f v,
          access_order := (pre2 ++ k :: post) ++ [f],
          max_size := t.max_size }
        pre2 (post ++ [f]) k hwf1 hfull1 (by rw [horder1]) hk1
        hnodup1 hnone1 hlen1
      refine ⟨t', ?_, hkt'⟩
      simp only [List.map_cons, runOps, hput]
      exact hrun

/-- C7: The recency cache never holds more entries than its configured
capacity in any reachable state; a put of a new key into a full cache
evicts exactly the least-recently-used key (the deque head); `get` and
`put` on a present key promote it to most-recently-used; and a key just
read survives `capacity − 1` subsequent puts of distinct new keys. -/
theorem C7_lru_cache :
    (∀ (α : Type) (m : Nat) (ops : List (CacheOp α)) (s : HealthDataCache α),
      runOps (HealthDataCache.init α m) ops = some s →
        s.cache.length ≤ m) ∧
    (∀ (α : Type) (s : HealthDataCache α) (k : String) (v : α)
        (o : String) (rest : List String),
      CacheWF s → alookup s.cache k = none →
      s.max_size ≤ s.cache.length → s.access_order = o :: rest →
      ∃ s', s.put k v = some s' ∧
        s'.access_order = rest ++ [k] ∧
        ∀ j, alookup s'.cache j =
          if j = k then some v
          else if j = o then none
          else alookup s.cache j) ∧
    (∀ (α : Type) (s : HealthDataCache α) (k : String) (v : α),
      alookup s.cache k = some v →
      (s.get k).1 = some v ∧ (s.get k).2.cache = s.cache ∧
        (s.get k).2.access_order = s.access_order.erase k ++ [k]) ∧
    (∀ (α : Type) (s : HealthDataCache α) (k : String) (v : α),
      (alookup s.cache k).isSome →
      s.put k v = some { s with
          cache := aset s.cache k v,
          access_order := s.access_order.erase k ++ [k] } ∧
      ∀ j, alookup (aset s.cache k v) j =
        if j = k then some v else alookup s.cache j) ∧
    (∀ (α : Type) (s : HealthDataCache α) (k : String)
        (fresh : List (String × α)),
      CacheWF s → s.cache.length = s.max_size →
      (alookup s.cache k).isSome →
      (fresh.map Prod.fst).Nodup →
      (∀ f ∈ fresh.map Prod.fst, alookup s.cache f = none) →
      fresh.length < s.max_size →
      ∃ s', runOps s
          (CacheOp.get k :: fresh.map (fun f => CacheOp.put f.1 f.2)) =
          some s' ∧
        (alookup s'.cache k).isSome) := by
  refine ⟨?_, ?_, ?_, ?_, ?_⟩
  · intro α m ops s hrun
    have hres := runOps_invariant ops (HealthDataCache.init α m)
      (cacheWF_init α m) (by simp [HealthDataCache.init]) s hrun
    simpa [HealthDataCache.init] using hres.2.2
  · intro α s k v o rest hwf hnone hcap horder
    have h1 : ¬ (alookup s.cache k).isSome = true := by rw [hnone]; simp
    refine ⟨{ cache := aset (adel s.cache o) k v,
              access_order := rest ++ [k],
              max_size := s.max_size }, ?_, rfl, ?_⟩
    · simp only [HealthDataCache.put, if_neg h1, if_pos hcap, horder]
    · intro j
      by_cases hj : j = k
      · subst hj
        rw [alookup_aset_self, if_pos rfl]
      · rw [alookup_aset_ne _ _ _ _ hj, if_neg hj]
        by_cases hjo : j = o
        · subst hjo
          rw [alookup_adel_self hwf.2, if_pos rfl]
        · rw [alookup_adel_ne _ _ _ hjo, if_neg hjo]
  · intro α s k v hl
    simp [HealthDataCache.get, hl]
  · intro α s k v h1
    refine ⟨by simp only [HealthDataCache.put, if_pos h1], ?_⟩
    intro j
    by_cases hj : j = k
    · subst hj
      rw [alookup_aset_self, if_pos rfl]
    · rw [alookup_aset_ne _ _ _ _ hj, if_neg hj]
  · intro α s k fresh hwf hfull hk hnodup hfresh hlen
    obtain ⟨v, hv⟩ := Option.isSome_iff_exists.mp hk
    have horder0 : (s.get k).2.access_order =
        s.access_order.erase k ++ [k] := by
      simp only [HealthDataCache.get, hv]
    obtain ⟨hc0, hm0⟩ := get_state s k
    have hkmem : k ∈ s.access_order := (mem_order_iff hwf k).mpr hk
    have hordlen : s.access_order.length = s.cache.length := by
      have hlen0 := hwf.1.length_eq
      simpa [akeys] using hlen0
    have herlen : (s.access_order.erase k).length =
        s.access_order.length - 1 := List.length_erase_of_mem hkmem
    obtain ⟨t', hrun, hk'⟩ := survival_aux fresh ((s.get k).2)
      (s.access_order.erase k) [] k (wf_get hwf k)
      (by rw [hc0, hm0]; exact hfull)
      (by rw [horder0])
      (by rw [hc0]; exact hk)
      hnodup
      (by intro f hf; rw [hc0]; exact hfresh f hf)
      (by rw [herlen, hordlen]; omega)
    exact ⟨t', by simpa only [runOps] using hrun, hk'⟩

/-- Witness for C7: a capacity-2 cache.  Inserting keys a, b, c from empty
keeps at most 2 entries; getting "a" in the full cache `{a, b}` and then
putting the fresh key "c" leaves "a" cached (it was promoted). -/
theorem C7_lru_cache_witness :
    (⟨[("b", 2), ("c", 3)], ["b", "c"], 2⟩ :
        HealthDataCache Nat).cache.length ≤ 2 ∧
    (∃ s', runOps (⟨[("a", 1), ("b", 2)], ["a", "b"], 2⟩ :
          HealthDataCache Nat)
        [CacheOp.get "a", CacheOp.put "c" 3] = some s' ∧
      (alookup s'.cache "a").isSome) :=
  ⟨C7_lru_cache.1 Nat 2
      [CacheOp.put "a" 1, CacheOp.put "b" 2, CacheOp.put "c" 3] _
      (by decide),
    C7_lru_cache.2.2.2.2 Nat ⟨[("a", 1), ("b", 2)], ["a", "b"], 2⟩ "a"
      [("c", 3)] (by decide) (by decide) (by decide) (by decide)
      (by decide) (by decide)⟩


/-! ### C9: system analytics -/

/-- Feed a list of `record_data` dicts through `add_health_record`. -/
def buildAgg (datas : List RecordData) : Option Aggregator :=
  datas.foldl (fun oa rd => oa.bind (fun a => a.add_health_record rd))
    (some Aggregator.init)

/-- The record constructed by `add_health_record` from `record_data`. -/
def recordOf (rd : RecordData) : HealthRecord :=
  mkHealthRecord rd.record_id rd.user_id rd.doctor_id rd.diagnosis
    rd.record_date rd.file_path

/-- The timeline map produced by a sequence of inserts (pure view). -/
def timelinesStep (m : List (Int × PatientTimeline)) (rd : RecordData) :
    List (Int × PatientTimeline) :=
  aset m rd.user_id
    (((alookup m rd.user_id).getD PatientTimeline.init).add_record
      (recordOf rd))

def timelinesOf (datas : List RecordData) : List (Int × PatientTimeline) :=
  datas.foldl timelinesStep []

theorem foldl_bind_none (datas : List RecordData) :
    datas.foldl (fun oa rd => oa.bind
      (fun a => a.add_health_record rd)) (none : Option Aggregator) = none := by
  induction datas with
  | nil => rfl
  | cons rd datas ih => simpa using ih

theorem add_health_record_timelines {a a' : Aggregator} {rd : RecordData}
    (h : a.add_health_record rd = some a') :
    a'.user_timelines = timelinesStep a.user_timelines rd := by
  simp only [Aggregator.add_health_record, mkHealthRecord] at h
  cases hput : a.cache.put ("user_timeline_" ++ toString rd.user_id) none with
  | none => rw [hput] at h; exact absurd h (by simp)
  | some c =>
    rw [hput] at h
    cases h
    rfl

theorem buildAgg_timelines :
    ∀ (datas : List RecordData) (a0 : Aggregator) (a : Aggregator),
      datas.foldl (fun oa rd => oa.bind (fun a => a.add_health_record rd))
          (some a0) = some a →
      a.user_timelines = datas.foldl timelinesStep a0.user_timelines := by
  intro datas
  induction datas with
  | nil =>
    intro a0 a h
    cases h
    rfl
  | cons rd datas ih =>
    intro a0 a h
    simp only [List.foldl_cons, Option.some_bind] at h
    cases hstep : a0.add_health_record rd with
    | none =>
      rw [hstep] at h
      rw [foldl_bind_none] at h
      exact absurd h (by simp)
    | some a1 =>
      rw [hstep] at h
      have := ih a1 a h
      rw [this, add_health_record_timelines hstep]
      rfl


theorem map_length_getD (o : Option (List PHR.HealthRecord)) :
    (o.map List.length).getD 0 = (o.getD []).length := by
  cases o <;> rfl

theorem map_f_getD {β : Type} (f : β → Nat) (o : Option β) (d : β)
    (hd : f d = 0) : (o.map f).getD 0 = f (o.getD d) := by
  cases o with
  | none => simp [hd]
  | some b => rfl

theorem sum_aset {κ β : Type} [DecidableEq κ] (f : β → Nat) :
    ∀ (m : List (κ × β)) (k : κ) (v : β),
      ((aset m k v).map (fun e => f e.2)).sum +
          ((alookup m k).map f).getD 0 =
        (m.map (fun e => f e.2)).sum + f v := by
  intro m
  induction m with
  | nil => intro k v; simp [aset, alookup]
  | cons e t ih =>
    intro k v
    obtain ⟨ek, ev⟩ := e
    by_cases h : k = ek
    · simp [aset, alookup, h]
      omega
    · simp only [aset, alookup, if_neg h, List.map_cons, List.sum_cons]
      have := ih k v
      omega

theorem totalRecords_add_record (tl : PatientTimeline) (r : HealthRecord) :
    (tl.add_record r).totalRecords = tl.totalRecords + 1 := by
  simp only [PatientTimeline.add_record, PatientTimeline.totalRecords,
    dappend]
  have h1 : alookup
      (aset tl.records_by_year r.record_date.year
        ((alookup tl.records_by_year r.record_date.year).getD [] ++ [r]))
      r.record_date.year =
      some ((alookup tl.records_by_year r.record_date.year).getD [] ++ [r]) :=
    alookup_aset_self _ _ _
  rw [h1]
  have hA := sum_aset List.length
    (aset tl.records_by_year r.record_date.year
      ((alookup tl.records_by_year r.record_date.year).getD [] ++ [r]))
    r.record_date.year
    (ssort recDesc
      ((alookup tl.records_by_year r.record_date.year).getD [] ++ [r]))
  rw [h1] at hA
  have hB := sum_aset List.length tl.records_by_year r.record_date.year
    ((alookup tl.records_by_year r.record_date.year).getD [] ++ [r])
  have hC : ((alookup tl.records_by_year r.record_date.year).map
      List.length).getD 0 =
      ((alookup tl.records_by_year r.record_date.year).getD []).length :=
    map_length_getD _
  have hlen : (ssort recDesc
      ((alookup tl.records_by_year r.record_date.year).getD [] ++ [r])).length =
      ((alookup tl.records_by_year r.record_date.year).getD []).length + 1 := by
    have := (ssort_perm recDesc
      ((alookup tl.records_by_year r.record_date.year).getD [] ++ [r])).length_eq
    simpa using this
  simp only [Option.map_some', Option.getD_some, List.length_append,
    List.length_singleton] at hA hB hC ⊢
  omega

/-- Count of records in a timeline's bucket for one severity tier. -/
def sevCount (tl : PatientTimeline) (sev : Severity) : Nat :=
  ((alookup tl.severity_index sev).getD []).length

theorem sevCount_add_record (tl : PatientTimeline) (r : HealthRecord)
    (sev : Severity) :
    sevCount (tl.add_record r) sev =
      sevCount tl sev + (if r.severity = sev then 1 else 0) := by
  simp only [sevCount, PatientTimeline.add_record, dappend]
  by_cases h : sev = r.severity
  · subst h
    rw [alookup_aset_self, if_pos rfl]
    simp
  · rw [alookup_aset_ne _ _ _ _ h, if_neg (fun heq => h heq.symm)]
    simp

theorem nodup_akeys_aset {κ β : Type} [DecidableEq κ]
    {m : List (κ × β)} (h : (akeys m).Nodup) (k : κ) (v : β) :
    (akeys (aset m k v)).Nodup := by
  by_cases hp : (alookup m k).isSome
  · rw [akeys_aset_present v hp]
    exact h
  · have hnone := Option.not_isSome_iff_eq_none.mp hp
    have hkmem := (alookup_eq_none_iff m k).mp hnone
    rw [akeys_aset_absent v hnone]
    refine h.append (by simp) ?_
    intro x hx hmem
    simp only [List.mem_singleton] at hmem
    subst hmem
    exact hkmem hx

theorem alookup_mem {κ β : Type} [DecidableEq κ] :
    ∀ {m : List (κ × β)} {k : κ} {v : β},
      alookup m k = some v → (k, v) ∈ m := by
  intro m
  induction m with
  | nil => intro k v h; simp [alookup] at h
  | cons e t ih =>
    intro k v h
    obtain ⟨ek, ev⟩ := e
    simp only [alookup] at h
    by_cases hk : k = ek
    · rw [if_pos hk] at h
      simp only [Option.some.injEq] at h
      subst hk
      subst h
      exact List.mem_cons_self _ _
    · rw [if_neg hk] at h
      exact List.mem_cons_of_mem _ (ih h)

theorem mem_aset {κ β : Type} [DecidableEq κ] :
    ∀ {m : List (κ × β)} {k : κ} {v : β} (e : κ × β),
      e ∈ aset m k v → e = (k, v) ∨ e ∈ m := by
  intro m
  induction m with
  | nil =>
    intro k v e h
    simp only [aset, List.mem_singleton] at h
    exact Or.inl h
  | cons x t ih =>
    intro k v e h
    obtain ⟨ek, ev⟩ := x
    simp only [aset] at h
    by_cases hk : k = ek
    · rw [if_pos hk] at h
      rcases List.mem_cons.mp h with h1 | h1
      · subst hk; exact Or.inl h1
      · exact Or.inr (List.mem_cons_of_mem _ h1)
    · rw [if_neg hk] at h
      rcases List.mem_cons.mp h with h1 | h1
      · exact Or.inr (h1 ▸ List.mem_cons_self _ _)
      · rcases ih e h1 with h2 | h2
        · exact Or.inl h2
        · exact Or.inr (List.mem_cons_of_mem _ h2)

/-- The invariant a reachable timeline keeps: distinct severity keys. -/
def TLInv (tl : PatientTimeline) : Prop := (akeys tl.severity_index).Nodup

theorem tlinv_add_record {tl : PatientTimeline} (h : TLInv tl)
    (r : HealthRecord) : TLInv (tl.add_record r) :=
  nodup_akeys_aset h _ _

theorem timelines_inv :
    ∀ (datas : List RecordData) (m : List (Int × PatientTimeline)),
      (∀ e ∈ m, TLInv e.2) →
      ∀ e ∈ datas.foldl timelinesStep m, TLInv e.2 := by
  intro datas
  induction datas with
  | nil => intro m hm; exact hm
  | cons rd t ih =>
    intro m hm
    refine ih (timelinesStep m rd) ?_
    intro e he
    rcases mem_aset e he with h1 | h1
    · subst h1
      refine tlinv_add_record ?_ _
      cases hl : alookup m rd.user_id with
      | none => simp [TLInv, PatientTimeline.init, akeys, hl]
      | some tl =>
        have := hm (rd.user_id, tl) (alookup_mem hl)
        simpa [hl] using this
    · exact hm e h1

theorem sevValue_inj (s t : Severity) : s.value = t.value ↔ s = t := by
  constructor
  · intro h
    cases s <;> cases t <;> first | rfl | exact absurd h (by decide)
  · intro h
    rw [h]

theorem dist_inner (key : Severity) :
    ∀ (entries : List (Severity × List HealthRecord))
      (d : List (String × Nat)),
      (alookup (entries.foldl (fun d se =>
          aset d se.1.value ((alookup d se.1.value).getD 0 + se.2.length)) d)
        key.value).getD 0 =
      (alookup d key.value).getD 0 +
        ((entries.filter (fun se => decide (se.1 = key))).map
          (fun se => se.2.length)).sum := by
  intro entries
  induction entries with
  | nil => intro d; simp
  | cons se t ih =>
    intro d
    simp only [List.foldl_cons, List.filter_cons]
    by_cases h : se.1 = key
    · have hv : se.1.value = key.value := by rw [h]
      rw [ih, hv, alookup_aset_self]
      simp only [h, decide_True, if_true, List.map_cons, List.sum_cons,
        Option.getD_some]
      omega
    · have hv : key.value ≠ se.1.value :=
        fun heq => h ((sevValue_inj se.1 key).mp heq.symm)
      rw [ih, alookup_aset_ne _ _ _ _ hv]
      simp [h]

theorem filter_single (key : Severity) :
    ∀ (m : List (Severity × List HealthRecord)), (akeys m).Nodup →
      ((m.filter (fun se => decide (se.1 = key))).map
        (fun se => se.2.length)).sum =
        ((alookup m key).getD []).length := by
  intro m
  induction m with
  | nil => intro _; simp [alookup]
  | cons e t ih =>
    intro hnd
    obtain ⟨ek, ev⟩ := e
    simp only [akeys, List.map_cons, List.nodup_cons] at hnd
    obtain ⟨hek, ht⟩ := hnd
    simp only [List.filter_cons]
    by_cases h : ek = key
    · subst h
      have hnone : t.filter (fun se => decide (se.1 = ek)) = [] := by
        rw [List.filter_eq_nil_iff]
        intro se hse
        simp only [decide_eq_true_eq]
        intro heq
        exact hek (heq ▸ List.mem_map_of_mem Prod.fst hse)
      simp only [decide_True, if_true, List.map_cons, List.sum_cons, hnone,
        alookup, if_pos rfl]
      simp
    · have h2 : key ≠ ek := fun heq => h heq.symm
      simp only [alookup, if_neg h2]
      rw [if_neg (by simp [h])]
      exact ih ht

theorem dist_outer (key : Severity) :
    ∀ (tls : List (Int × PatientTimeline)) (d : List (String × Nat)),
      (∀ e ∈ tls, TLInv e.2) →
      (alookup (tls.foldl (fun d e => e.2.severity_index.foldl
          (fun d se => aset d se.1.value
            ((alookup d se.1.value).getD 0 + se.2.length)) d) d)
        key.value).getD 0 =
      (alookup d key.value).getD 0 +
        (tls.map (fun e => sevCount e.2 key)).sum := by
  intro tls
  induction tls with
  | nil => intro d _; simp
  | cons e t ih =>
    intro d hinv
    simp only [List.foldl_cons, List.map_cons, List.sum_cons]
    rw [ih _ (fun x hx => hinv x (List.mem_cons_of_mem _ hx))]
    rw [dist_inner key e.2.severity_index d]
    rw [filter_single key e.2.severity_index (hinv e (List.mem_cons_self _ _))]
    simp only [sevCount]
    omega


theorem records_total :
    ∀ (datas : List RecordData) (m : List (Int × PatientTimeline)),
      ((datas.foldl timelinesStep m).map
        (fun e => e.2.totalRecords)).sum =
      (m.map (fun e => e.2.totalRecords)).sum + datas.length := by
  intro datas
  induction datas with
  | nil => intro m; simp
  | cons rd t ih =>
    intro m
    simp only [List.foldl_cons, List.length_cons]
    rw [ih]
    have hA := sum_aset (fun tl => tl.totalRecords) m rd.user_id
      (((alookup m rd.user_id).getD PatientTimeline.init).add_record
        (recordOf rd))
    have hB : ((alookup m rd.user_id).map
        (fun tl => tl.totalRecords)).getD 0 =
        ((alookup m rd.user_id).getD PatientTimeline.init).totalRecords :=
      map_f_getD _ _ _ rfl
    rw [totalRecords_add_record] at hA
    show ((aset m rd.user_id _).map (fun e => e.2.totalRecords)).sum + _ = _
    omega

theorem sev_total (key : Severity) :
    ∀ (datas : List RecordData) (m : List (Int × PatientTimeline)),
      ((datas.foldl timelinesStep m).map
        (fun e => sevCount e.2 key)).sum =
      (m.map (fun e => sevCount e.2 key)).sum +
        (datas.filter
          (fun rd => decide (calcSeverity rd.diagnosis = key))).length := by
  intro datas
  induction datas with
  | nil => intro m; simp
  | cons rd t ih =>
    intro m
    simp only [List.foldl_cons, List.filter_cons]
    rw [ih]
    have hA := sum_aset (fun tl => sevCount tl key) m rd.user_id
      (((alookup m rd.user_id).getD PatientTimeline.init).add_record
        (recordOf rd))
    have hB : ((alookup m rd.user_id).map
        (fun tl => sevCount tl key)).getD 0 =
        sevCount ((alookup m rd.user_id).getD PatientTimeline.init) key :=
      map_f_getD _ _ _ rfl
    rw [sevCount_add_record] at hA
    have hsev : (recordOf rd).severity = calcSeverity rd.diagnosis := rfl
    rw [hsev] at hA
    by_cases h : calcSeverity rd.diagnosis = key
    · rw [if_pos h] at hA
      simp only [h, decide_True, if_true, List.length_cons]
      show ((aset m rd.user_id _).map (fun e => sevCount e.2 key)).sum + _ = _
      omega
    · rw [if_neg h] at hA
      rw [if_neg (by simp [h])]
      show ((aset m rd.user_id _).map (fun e => sevCount e.2 key)).sum + _ = _
      omega

theorem mem_akeys_aset {κ β : Type} [DecidableEq κ]
    (m : List (κ × β)) (k : κ) (v : β) (u : κ) :
    u ∈ akeys (aset m k v) ↔ u ∈ akeys m ∨ u = k := by
  by_cases hp : (alookup m k).isSome
  · rw [akeys_aset_present v hp]
    constructor
    · exact Or.inl
    · rintro (h | h)
      · exact h
      · exact h ▸ (alookup_isSome_iff_mem_akeys m k).mp hp
  · rw [akeys_aset_absent v (Option.not_isSome_iff_eq_none.mp hp)]
    simp

theorem nodup_keys_fold :
    ∀ (datas : List RecordData) (m : List (Int × PatientTimeline)),
      (akeys m).Nodup → (akeys (datas.foldl timelinesStep m)).Nodup := by
  intro datas
  induction datas with
  | nil => intro m h; exact h
  | cons rd t ih =>
    intro m h
    exact ih _ (nodup_akeys_aset h _ _)

theorem mem_keys_fold :
    ∀ (datas : List RecordData) (m : List (Int × PatientTimeline)) (u : Int),
      u ∈ akeys (datas.foldl timelinesStep m) ↔
        u ∈ akeys m ∨ u ∈ datas.map (fun rd => rd.user_id) := by
  intro datas
  induction datas with
  | nil => intro m u; simp
  | cons rd t ih =>
    intro m u
    simp only [List.foldl_cons, List.map_cons, List.mem_cons]
    rw [ih (timelinesStep m rd) u]
    simp only [timelinesStep]
    rw [mem_akeys_aset]
    tauto

theorem timelines_length (datas : List RecordData) :
    (timelinesOf datas).length =
      ((datas.map (fun rd => rd.user_id)).toFinset).card := by
  have hnodup : (akeys (timelinesOf datas)).Nodup :=
    nodup_keys_fold datas [] (by simp [akeys])
  have hmem : ∀ u, u ∈ akeys (timelinesOf datas) ↔
      u ∈ datas.map (fun rd => rd.user_id) := by
    intro u
    have := mem_keys_fold datas [] u
    simpa [akeys] using this
  have hfin : (akeys (timelinesOf datas)).toFinset =
      (datas.map (fun rd => rd.user_id)).toFinset := by
    apply Finset.ext
    intro u
    simp only [List.mem_toFinset]
    exact hmem u
  have h1 : (timelinesOf datas).length = (akeys (timelinesOf datas)).length := by
    simp [akeys]
  rw [h1, ← List.toFinset_card_of_nodup hnodup, hfin]

/-- C9: `get_system_analytics` reports the number of distinct users with a
record, the total number of added records, the per-tier record counts, and
an average of records per user that is the exact quotient for nonempty data
and 0 (no division error) when there are no users. -/
theorem C9_system_analytics :
    ∀ (datas : List RecordData) (a : Aggregator),
      buildAgg datas = some a →
      a.get_system_analytics.total_users =
        ((datas.map (fun rd => rd.user_id)).toFinset).card ∧
      a.get_system_analytics.total_records = datas.length ∧
      (∀ sev : Severity,
        (alookup a.get_system_analytics.severity_distribution
          sev.value).getD 0 =
        (datas.filter
          (fun rd => decide (calcSeverity rd.diagnosis = sev))).length) ∧
      (datas ≠ [] →
        a.get_system_analytics.avg_records_per_user =
          (a.get_system_analytics.total_records : ℚ) /
            (a.get_system_analytics.total_users : ℚ)) ∧
      (datas = [] → a.get_system_analytics.avg_records_per_user = 0) := by
  intro datas a h
  have htl : a.user_timelines = timelinesOf datas :=
    buildAgg_timelines datas Aggregator.init a h
  refine ⟨?_, ?_, ?_, ?_, ?_⟩
  · show a.user_timelines.length = _
    rw [htl]
    exact timelines_length datas
  · show (a.user_timelines.map (fun e => e.2.totalRecords)).sum = _
    rw [htl]
    have := records_total datas []
    simpa [timelinesOf] using this
  · intro sev
    show (alookup (a.user_timelines.foldl _ []) sev.value).getD 0 = _
    rw [htl]
    rw [dist_outer sev (timelinesOf datas) []
      (timelines_inv datas [] (by simp))]
    have := sev_total sev datas []
    simp only [alookup, Option.getD_none, List.map_nil, List.sum_nil,
      Nat.zero_add]
    simpa [timelinesOf] using this
  · intro hne
    have hpos : 0 < a.user_timelines.length := by
      rw [htl]
      cases hd : datas with
      | nil => exact absurd hd hne
      | cons rd rest =>
        have hmem : rd.user_id ∈ akeys (timelinesOf datas) := by
          simp only [timelinesOf]
          rw [mem_keys_fold datas [] rd.user_id]
          exact Or.inr (by rw [hd]; simp)
        have : timelinesOf datas ≠ [] := by
          intro heq
          rw [heq] at hmem
          simp [akeys] at hmem
        rw [← hd]
        exact List.length_pos.mpr this
    show (if 0 < a.user_timelines.length then _ else _) = _
    rw [if_pos hpos]
    rfl
  · intro heq
    subst heq
    cases h
    rfl

def ddC9 : List RecordData :=
  [⟨1, 1, 1, "flu".toList, ⟨2024, 100⟩, none⟩,
   ⟨2, 1, 2, "Type 2 Diabetes".toList, ⟨2024, 200⟩, none⟩]

def aggC9 : Aggregator := (buildAgg ddC9).getD Aggregator.init

/-- Witness for C9 against a concrete two-record, one-user run. -/
theorem C9_system_analytics_witness :
    aggC9.get_system_analytics.total_records = ddC9.length ∧
    aggC9.get_system_analytics.total_users =
      ((ddC9.map (fun rd => rd.user_id)).toFinset).card ∧
    aggC9.get_system_analytics.avg_records_per_user =
      (aggC9.get_system_analytics.total_records : ℚ) /
        (aggC9.get_system_analytics.total_users : ℚ) :=
  ⟨(C9_system_analytics ddC9 aggC9 (by decide)).2.1,
   (C9_system_analytics ddC9 aggC9 (by decide)).1,
   (C9_system_analytics ddC9 aggC9 (by decide)).2.2.2.1 (by decide)⟩

end PHR
